import Mathlib

/-
  Verification of `src/support_graph.py`: construction and pruning of a
  support graph for a variable of interest in a Bayesian network.

  Shallow embedding notes.
  * A `networkx.DiGraph` used as a Bayesian network is modelled by `BN`:
    a finite set of variable names plus a finite edge set whose endpoints
    are always nodes (networkx maintains exactly this invariant, since
    `add_edge` inserts missing endpoints).
  * Python `set`/`frozenset` values of strings are `Finset Var`.
  * Python iterates over hash sets in an unspecified order; the embedding
    fixes a canonical order by sorting (`sortVars`), which every
    iteration over a set uses.
  * The `f_sets` bookkeeping dictionary of the Python code always maps a
    support-graph node `(var, frozenset)` to `set(frozenset)` (it is
    written exactly once per node, at the top of `_expand`), so every
    read `f_sets[node_i]` equals `node_i.2`; the embedding uses `node_i.2`
    directly.
-/

abbrev Var := String

/-- The error raised by networkx (and surfaced by the code) when an
operation is applied to a variable that is not a member of the network;
it identifies the missing variable. -/
structure NotFoundError where
  missing : Var
deriving DecidableEq

/-- A Bayesian network: directed graph over variable names.  `edge_mem`
is the networkx data-structure invariant that edges join existing nodes. -/
structure BN where
  nodes : Finset Var
  edges : Finset (Var × Var)
  edge_mem : ∀ e ∈ edges, e.1 ∈ nodes ∧ e.2 ∈ nodes

/-- `bn.predecessors(v)` as a set: sources of edges into `v`. -/
def predsBN (bn : BN) (v : Var) : Finset Var :=
  (bn.edges.filter (fun e => e.2 = v)).image Prod.fst

/-- `bn.successors(v)` as a set: targets of edges out of `v`. -/
def succsBN (bn : BN) (v : Var) : Finset Var :=
  (bn.edges.filter (fun e => e.1 = v)).image Prod.snd

lemma predsBN_subset (bn : BN) (v : Var) : predsBN bn v ⊆ bn.nodes := by
  intro x hx
  simp only [predsBN, Finset.mem_image, Finset.mem_filter] at hx
  obtain ⟨e, ⟨he, _⟩, hfst⟩ := hx
  exact hfst ▸ (bn.edge_mem e he).1

lemma succsBN_subset (bn : BN) (v : Var) : succsBN bn v ⊆ bn.nodes := by
  intro x hx
  simp only [succsBN, Finset.mem_image, Finset.mem_filter] at hx
  obtain ⟨e, ⟨he, _⟩, hsnd⟩ := hx
  exact hsnd ▸ (bn.edge_mem e he).2

/-- Canonical iteration order over a Python set of strings: the sorted
list of its elements (insertion sort, which unfolds by kernel reduction). -/
def sortVars (s : Finset Var) : List Var :=
  Quotient.liftOn s.val (fun l => List.insertionSort (fun a b => a ≤ b) l)
    (fun _ _ h =>
      List.eq_of_perm_of_sorted
        (((List.perm_insertionSort _ _).trans h).trans
          (List.perm_insertionSort _ _).symm)
        (List.sorted_insertionSort _ _) (List.sorted_insertionSort _ _))

lemma mem_sortVars {s : Finset Var} {x : Var} : x ∈ sortVars s ↔ x ∈ s := by
  rcases s with ⟨m, nd⟩
  induction m using Quotient.inductionOn with
  | h l =>
    show x ∈ List.insertionSort _ l ↔ _
    rw [(List.perm_insertionSort _ l).mem_iff]
    rfl

/-- Body of `get_markov_blanket`, line by line: start from the
predecessors, add the children, then for each child add its
predecessors, finally discard the variable itself. -/
def mbSet (bn : BN) (v : Var) : Finset Var :=
  let blanket := (∅ : Finset Var) ∪ predsBN bn v
  let children := succsBN bn v
  let blanket := blanket ∪ children
  let blanket := (sortVars children).foldl (fun b c => b ∪ predsBN bn c) blanket
  blanket.erase v

/-- `get_markov_blanket(bn, variable)`: the first `bn.predecessors`
call raises networkx's not-in-the-digraph error when `variable` is not a
member; otherwise the blanket set is returned. -/
def get_markov_blanket (bn : BN) (variable_ : Var) :
    Except NotFoundError (Finset Var) :=
  if variable_ ∈ bn.nodes then Except.ok (mbSet bn variable_)
  else Except.error ⟨variable_⟩

lemma foldl_union_mem {f : Var → Finset Var} {x : Var} :
    ∀ (l : List Var) (init : Finset Var),
      x ∈ l.foldl (fun b c => b ∪ f c) init ↔ x ∈ init ∨ ∃ c ∈ l, x ∈ f c := by
  intro l
  induction l with
  | nil => simp
  | cons c cs ih =>
    intro init
    simp only [List.foldl_cons, ih, Finset.mem_union, List.mem_cons]
    constructor
    · rintro (⟨h | h⟩ | ⟨d, hd, hx⟩)
      · exact Or.inl h
      · exact Or.inr ⟨c, Or.inl rfl, h⟩
      · exact Or.inr ⟨d, Or.inr hd, hx⟩
    · rintro (h | ⟨d, (rfl | hd), hx⟩)
      · exact Or.inl (Or.inl h)
      · exact Or.inl (Or.inr hx)
      · exact Or.inr ⟨d, hd, hx⟩

lemma mem_mbSet {bn : BN} {v x : Var} :
    x ∈ mbSet bn v ↔
      (x ∈ predsBN bn v ∨ x ∈ succsBN bn v ∨
        ∃ c ∈ succsBN bn v, x ∈ predsBN bn c) ∧ x ≠ v := by
  simp only [mbSet, Finset.mem_erase, foldl_union_mem, Finset.mem_union,
    Finset.not_mem_empty, false_or, mem_sortVars]
  tauto

lemma mbSet_subset_nodes (bn : BN) (v : Var) : mbSet bn v ⊆ bn.nodes := by
  intro x hx
  rcases (mem_mbSet.mp hx).1 with h | h | ⟨c, _, h⟩
  · exact predsBN_subset bn v h
  · exact succsBN_subset bn v h
  · exact predsBN_subset bn c h

/-- A support-graph node: a variable paired with its (frozen) forbidden set. -/
abbrev SNode := Var × Finset Var

/-- A support graph (a networkx `DiGraph` over `SNode` values).  As for
`BN`, `edge_mem` is the networkx invariant that edges join existing
nodes.  The `label` attribute stored by the code always equals the first
component of the node and the `f_set` attribute renders the second, so
neither needs separate storage. -/
@[ext]
structure SG where
  nodes : Finset SNode
  edges : Finset (SNode × SNode)
  edge_mem : ∀ e ∈ edges, e.1 ∈ nodes ∧ e.2 ∈ nodes

instance : DecidableEq SG := fun a b =>
  decidable_of_iff (a.nodes = b.nodes ∧ a.edges = b.edges)
    ⟨fun ⟨h1, h2⟩ => SG.ext h1 h2, fun h => by cases h; exact ⟨rfl, rfl⟩⟩

/-- `sg.add_node(n)` (attributes carry no extra information, see `SG`). -/
def addNodeSG (g : SG) (n : SNode) : SG :=
  ⟨insert n g.nodes, g.edges, fun e he =>
    ⟨Finset.mem_insert_of_mem (g.edge_mem e he).1,
     Finset.mem_insert_of_mem (g.edge_mem e he).2⟩⟩

/-- `sg.add_edge(a, b)`: networkx also inserts missing endpoints. -/
def addEdgeSG (g : SG) (a b : SNode) : SG :=
  ⟨insert a (insert b g.nodes), insert (a, b) g.edges, by
    intro e he
    rcases Finset.mem_insert.mp he with h | h
    · subst h
      exact ⟨Finset.mem_insert_self a _,
        Finset.mem_insert_of_mem (Finset.mem_insert_self b _)⟩
    · exact ⟨Finset.mem_insert_of_mem (Finset.mem_insert_of_mem (g.edge_mem e h).1),
        Finset.mem_insert_of_mem (Finset.mem_insert_of_mem (g.edge_mem e h).2)⟩⟩

/-- Termination measure for the expansion: how many network variables the
forbidden set still misses (plus one).  Every support request strictly
enlarges the forbidden set by at least one network variable, so this
strictly decreases along nested expansions. -/
def muF (bn : BN) (F : Finset Var) : Nat :=
  bn.nodes.card + 1 - (F ∩ bn.nodes).card

lemma one_le_muF (bn : BN) (F : Finset Var) : 1 ≤ muF bn F := by
  have h : (F ∩ bn.nodes).card ≤ bn.nodes.card :=
    Finset.card_le_card (Finset.inter_subset_right)
  simp only [muF]
  omega

lemma muF_le (bn : BN) (F : Finset Var) : muF bn F ≤ bn.nodes.card + 1 := by
  simp only [muF]
  omega

lemma mu_lt (bn : BN) {F f : Finset Var} {w : Var} (hw : w ∈ bn.nodes)
    (hF : w ∉ F) (hsub : F ⊆ f) (hwf : w ∈ f) : muF bn f < muF bn F := by
  have h1 : insert w (F ∩ bn.nodes) ⊆ f ∩ bn.nodes := by
    intro x hx
    rcases Finset.mem_insert.mp hx with h | h
    · subst h
      exact Finset.mem_inter.mpr ⟨hwf, hw⟩
    · exact Finset.mem_inter.mpr ⟨hsub (Finset.mem_inter.mp h).1,
        (Finset.mem_inter.mp h).2⟩
  have h2 : (F ∩ bn.nodes).card + 1 ≤ (f ∩ bn.nodes).card := by
    have := Finset.card_le_card h1
    rwa [Finset.card_insert_of_not_mem
      (fun hc => hF (Finset.mem_inter.mp hc).1)] at this
  have h3 : (f ∩ bn.nodes).card ≤ bn.nodes.card :=
    Finset.card_le_card (Finset.inter_subset_right)
  simp only [muF]
  omega

mutual

/-- `_expand(bn, sg, node_i, f_sets)`: iterate over the Markov blanket of
the node's variable (in the canonical order) and process each candidate
supporter.  The list handed to `expandVars` carries the proof that all
its members are network nodes, which drives termination. -/
def _expand (bn : BN) (sg : SG) (node_i : SNode) : SG :=
  expandVars bn node_i (sortVars (mbSet bn node_i.1))
    (fun w hw => mbSet_subset_nodes bn node_i.1 (mem_sortVars.mp hw)) sg
termination_by (muF bn node_i.2, 2, 0)
decreasing_by
  apply Prod.Lex.right
  apply Prod.Lex.left
  omega

/-- The `for var_j in get_markov_blanket(bn, var_i)` loop of `_expand`:
skip members of the forbidden set, otherwise classify the candidate as
parent, child or spouse (in that order) and issue the support request(s). -/
def expandVars (bn : BN) (node_i : SNode) (ws : List Var)
    (hws : ∀ w ∈ ws, w ∈ bn.nodes) (sg : SG) : SG :=
  match ws, hws with
  | [], _ => sg
  | w :: ws', hws =>
    let sg' :=
      if hmem : w ∈ node_i.2 then sg
      else if w ∈ predsBN bn node_i.1 then
        -- Case I: w is a parent of node_i's variable
        _add_support bn sg node_i w (node_i.2 ∪ {w})
      else if w ∈ succsBN bn node_i.1 then
        -- Case II: w is a child; fold in its other parents
        _add_support bn sg node_i w
          ((node_i.2 ∪ {w}) ∪ ((predsBN bn w).erase node_i.1))
      else
        -- Case III: spouse; one request per common child
        spouseChildren bn node_i w
          (sortVars (succsBN bn node_i.1 ∩ succsBN bn w))
          (hws w (List.mem_cons_self w ws')) hmem sg
    expandVars bn node_i ws' (fun x hx => hws x (List.mem_cons_of_mem w hx)) sg'
termination_by (muF bn node_i.2, 1, ws.length)
decreasing_by
  · apply Prod.Lex.left
    exact mu_lt bn (hws w (List.mem_cons_self w ws')) hmem
      Finset.subset_union_left
      (Finset.mem_union_right _ (Finset.mem_singleton_self w))
  · apply Prod.Lex.left
    exact mu_lt bn (hws w (List.mem_cons_self w ws')) hmem
      (Finset.subset_union_left.trans Finset.subset_union_left)
      (Finset.mem_union_left _
        (Finset.mem_union_right _ (Finset.mem_singleton_self w)))
  · apply Prod.Lex.right
    apply Prod.Lex.left
    omega
  · apply Prod.Lex.right
    apply Prod.Lex.right
    simp

/-- The `for var_k in common_children` loop of `_expand`'s spouse case:
for each common child, if there is no direct edge between the two
variables in either direction, issue a support request. -/
def spouseChildren (bn : BN) (node_i : SNode) (w : Var) (ks : List Var)
    (hw : w ∈ bn.nodes) (hmem : w ∉ node_i.2) (sg : SG) : SG :=
  match ks with
  | [] => sg
  | k :: ks' =>
    let sg' :=
      if (node_i.1, w) ∉ bn.edges ∧ (w, node_i.1) ∉ bn.edges then
        _add_support bn sg node_i w (node_i.2 ∪ {w, k})
      else sg
    spouseChildren bn node_i w ks' hw hmem sg'
termination_by (muF bn node_i.2, 0, ks.length)
decreasing_by
  · apply Prod.Lex.left
    exact mu_lt bn hw hmem Finset.subset_union_left
      (Finset.mem_union_right _ (Finset.mem_insert_self w _))
  · apply Prod.Lex.right
    apply Prod.Lex.right
    simp

/-- `_add_support(bn, sg, node_i, var_j, f_new, f_sets)`: create the
candidate node if absent (with its edge to the supported node) and expand
it; if it exists, only add the missing edge. -/
def _add_support (bn : BN) (sg : SG) (node_i : SNode) (var_j : Var)
    (f_new : Finset Var) : SG :=
  let node_j : SNode := (var_j, f_new)
  if node_j ∈ sg.nodes then
    if (node_j, node_i) ∈ sg.edges then sg
    else addEdgeSG sg node_j node_i
  else
    _expand bn (addEdgeSG (addNodeSG sg node_j) node_j node_i) node_j
termination_by (muF bn f_new, 3, 0)
decreasing_by
  apply Prod.Lex.right
  apply Prod.Lex.left
  omega

end

/-- The support graph holding only the freshly created root node. -/
def initialSG (v : Var) : SG := ⟨{(v, {v})}, ∅, by simp⟩

/-- `create_support_graph(bn, variable_of_interest)`.  The Python code
raises networkx's not-found error from the first `get_markov_blanket`
call (inside `_expand` on the root) when the variable of interest is not
a network member; that membership check is hoisted here.  Every
recursively expanded variable comes from a Markov blanket and hence is a
member (`mbSet_subset_nodes`), so no later blanket call can fail. -/
def create_support_graph (bn : BN) (variable_of_interest : Var) :
    Except NotFoundError SG :=
  if variable_of_interest ∈ bn.nodes then
    Except.ok (_expand bn (initialSG variable_of_interest)
      (variable_of_interest, {variable_of_interest}))
  else Except.error ⟨variable_of_interest⟩

/-! ### Step-equation lemmas for the recursive builder -/

lemma expandVars_nil {bn : BN} {node_i : SNode}
    {hws : ∀ w ∈ ([] : List Var), w ∈ bn.nodes} {sg : SG} :
    expandVars bn node_i [] hws sg = sg := by
  rw [expandVars]

lemma expandVars_cons {bn : BN} {node_i : SNode} {w : Var} {ws : List Var}
    {hws : ∀ x ∈ w :: ws, x ∈ bn.nodes} {sg : SG} :
    expandVars bn node_i (w :: ws) hws sg =
      expandVars bn node_i ws (fun x hx => hws x (List.mem_cons_of_mem w hx))
        (if hmem : w ∈ node_i.2 then sg
         else if w ∈ predsBN bn node_i.1 then
           _add_support bn sg node_i w (node_i.2 ∪ {w})
         else if w ∈ succsBN bn node_i.1 then
           _add_support bn sg node_i w
             ((node_i.2 ∪ {w}) ∪ ((predsBN bn w).erase node_i.1))
         else
           spouseChildren bn node_i w
             (sortVars (succsBN bn node_i.1 ∩ succsBN bn w))
             (hws w (List.mem_cons_self w ws)) hmem sg) := by
  rw [expandVars]

lemma spouseChildren_nil {bn : BN} {node_i : SNode} {w : Var}
    {hw : w ∈ bn.nodes} {hmem : w ∉ node_i.2} {sg : SG} :
    spouseChildren bn node_i w [] hw hmem sg = sg := by
  rw [spouseChildren]

lemma spouseChildren_cons {bn : BN} {node_i : SNode} {w k : Var} {ks : List Var}
    {hw : w ∈ bn.nodes} {hmem : w ∉ node_i.2} {sg : SG} :
    spouseChildren bn node_i w (k :: ks) hw hmem sg =
      spouseChildren bn node_i w ks hw hmem
        (if (node_i.1, w) ∉ bn.edges ∧ (w, node_i.1) ∉ bn.edges then
          _add_support bn sg node_i w (node_i.2 ∪ {w, k}) else sg) := by
  rw [spouseChildren]

lemma addSupport_unfold (bn : BN) (sg : SG) (node_i : SNode) (var_j : Var)
    (f_new : Finset Var) :
    _add_support bn sg node_i var_j f_new =
      (if (var_j, f_new) ∈ sg.nodes then
        if ((var_j, f_new), node_i) ∈ sg.edges then sg
        else addEdgeSG sg (var_j, f_new) node_i
      else
        _expand bn (addEdgeSG (addNodeSG sg (var_j, f_new)) (var_j, f_new) node_i)
          (var_j, f_new)) := by
  rw [_add_support]

lemma expand_unfold (bn : BN) (sg : SG) (node_i : SNode) :
    _expand bn sg node_i =
      expandVars bn node_i (sortVars (mbSet bn node_i.1))
        (fun w hw => mbSet_subset_nodes bn node_i.1 (mem_sortVars.mp hw)) sg := by
  rw [_expand]

/-! ### Spec-side view of one expansion step (claim C1's wording)

The specification describes `expand((v, F))` as: for every candidate `w`
in the Markov blanket of `v` that is not already in `F`, classify `w`
against `v` in the fixed priority order parent / child / spouse and
issue the resulting support request(s). -/

/-- One `_add_support` call, as a fold step over a request `(w, newF)`. -/
def addStep (bn : BN) (node_i : SNode) (sg : SG) (p : Var × Finset Var) : SG :=
  _add_support bn sg node_i p.1 p.2

/-- The support requests the specification assigns to a single candidate
`w`: nothing if `w` is outside the blanket or already forbidden; one
request `newF = F ∪ {w}` for a parent; one request
`newF = F ∪ {w} ∪ (parents(w) \ {v})` for a child; for a spouse, one
request `newF = F ∪ {w, k}` per shared child `k`, issued only when there
is no direct edge between `v` and `w` in either direction. -/
def specCaseRequests (bn : BN) (v : Var) (F : Finset Var) (w : Var) :
    List (Var × Finset Var) :=
  if w ∉ mbSet bn v ∨ w ∈ F then []
  else if w ∈ predsBN bn v then [(w, F ∪ {w})]
  else if w ∈ succsBN bn v then [(w, F ∪ {w} ∪ (predsBN bn w \ {v}))]
  else if (v, w) ∉ bn.edges ∧ (w, v) ∉ bn.edges then
    (sortVars (succsBN bn v ∩ succsBN bn w)).map (fun k => (w, F ∪ {w, k}))
  else []

/-- All support requests the specification assigns to expanding `(v, F)`. -/
def specRequests (bn : BN) (v : Var) (F : Finset Var) : List (Var × Finset Var) :=
  (sortVars (mbSet bn v)).flatMap (specCaseRequests bn v F)

lemma spouseChildren_eq_foldl (bn : BN) (node_i : SNode) (w : Var) :
    ∀ (ks : List Var) (hw : w ∈ bn.nodes) (hmem : w ∉ node_i.2) (sg : SG),
      spouseChildren bn node_i w ks hw hmem sg =
        (if (node_i.1, w) ∉ bn.edges ∧ (w, node_i.1) ∉ bn.edges then
          ks.map (fun k => (w, node_i.2 ∪ {w, k})) else []).foldl
          (addStep bn node_i) sg := by
  intro ks
  induction ks with
  | nil =>
    intro hw hmem sg
    rw [spouseChildren_nil]
    split <;> simp
  | cons k ks ih =>
    intro hw hmem sg
    rw [spouseChildren_cons, ih]
    by_cases hc : (node_i.1, w) ∉ bn.edges ∧ (w, node_i.1) ∉ bn.edges
    · rw [if_pos hc, if_pos hc, if_pos hc, List.map_cons, List.foldl_cons]
      rfl
    · rw [if_neg hc, if_neg hc, if_neg hc]

lemma expandVars_eq_foldl (bn : BN) (node_i : SNode) :
    ∀ (ws : List Var) (hws : ∀ x ∈ ws, x ∈ bn.nodes)
      (hmb : ∀ x ∈ ws, x ∈ mbSet bn node_i.1) (sg : SG),
      expandVars bn node_i ws hws sg =
        (ws.flatMap (specCaseRequests bn node_i.1 node_i.2)).foldl
          (addStep bn node_i) sg := by
  intro ws
  induction ws with
  | nil =>
    intro hws hmb sg
    rw [expandVars_nil]
    simp
  | cons w ws ih =>
    intro hws hmb sg
    rw [expandVars_cons, ih _ (fun x hx => hmb x (List.mem_cons_of_mem w hx))]
    rw [List.flatMap_cons, List.foldl_append]
    congr 1
    have hwmb : w ∈ mbSet bn node_i.1 := hmb w (List.mem_cons_self w ws)
    by_cases hmem : w ∈ node_i.2
    · rw [dif_pos hmem]
      rw [specCaseRequests, if_pos (Or.inr hmem)]
      rfl
    · rw [dif_neg hmem]
      rw [specCaseRequests,
        if_neg (fun hcon => Or.elim hcon (fun h1 => h1 hwmb) (fun h2 => hmem h2))]
      by_cases hpar : w ∈ predsBN bn node_i.1
      · rw [if_pos hpar, if_pos hpar]
        rfl
      · rw [if_neg hpar, if_neg hpar]
        by_cases hch : w ∈ succsBN bn node_i.1
        · rw [if_pos hch, if_pos hch]
          simp only [List.foldl_cons, List.foldl_nil, addStep]
          rw [Finset.erase_eq]
        · rw [if_neg hch, if_neg hch,
            spouseChildren_eq_foldl bn node_i w _
              (hws w (List.mem_cons_self w ws)) hmem sg]

/-- The code's recursive expansion of one node equals issuing exactly the
spec's support requests, in order, threading the graph through. -/
lemma expand_eq_foldl (bn : BN) (sg : SG) (node_i : SNode) :
    _expand bn sg node_i =
      (specRequests bn node_i.1 node_i.2).foldl (addStep bn node_i) sg := by
  rw [expand_unfold]
  exact expandVars_eq_foldl bn node_i _ _
    (fun x hx => mem_sortVars.mp hx) sg

lemma mem_specCaseRequests {bn : BN} {v : Var} {F : Finset Var} {w' w : Var}
    {f : Finset Var} :
    (w, f) ∈ specCaseRequests bn v F w' ↔
      w = w' ∧ w' ∈ mbSet bn v ∧ w' ∉ F ∧
        ((w' ∈ predsBN bn v ∧ f = F ∪ {w'}) ∨
         (w' ∉ predsBN bn v ∧ w' ∈ succsBN bn v ∧
           f = F ∪ {w'} ∪ (predsBN bn w' \ {v})) ∨
         (w' ∉ predsBN bn v ∧ w' ∉ succsBN bn v ∧
           (v, w') ∉ bn.edges ∧ (w', v) ∉ bn.edges ∧
           ∃ k, k ∈ succsBN bn v ∧ k ∈ succsBN bn w' ∧ f = F ∪ {w', k})) := by
  unfold specCaseRequests
  by_cases h1 : w' ∉ mbSet bn v ∨ w' ∈ F
  · rw [if_pos h1]
    simp only [List.not_mem_nil, false_iff]
    rintro ⟨-, hmb, hF, -⟩
    exact Or.elim h1 (fun h => h hmb) (fun h => hF h)
  · rw [if_neg h1]
    have hmb : w' ∈ mbSet bn v := by
      by_contra hc
      exact h1 (Or.inl hc)
    have hF : w' ∉ F := fun hc => h1 (Or.inr hc)
    by_cases hp : w' ∈ predsBN bn v
    · rw [if_pos hp]
      simp only [List.mem_singleton, Prod.mk.injEq]
      constructor
      · rintro ⟨rfl, rfl⟩
        exact ⟨rfl, hmb, hF, Or.inl ⟨hp, rfl⟩⟩
      · rintro ⟨rfl, -, -, (⟨-, rfl⟩ | ⟨hnp, -⟩ | ⟨hnp, -⟩)⟩
        · exact ⟨rfl, rfl⟩
        · exact absurd hp hnp
        · exact absurd hp hnp
    · rw [if_neg hp]
      by_cases hc : w' ∈ succsBN bn v
      · rw [if_pos hc]
        simp only [List.mem_singleton, Prod.mk.injEq]
        constructor
        · rintro ⟨rfl, rfl⟩
          exact ⟨rfl, hmb, hF, Or.inr (Or.inl ⟨hp, hc, rfl⟩)⟩
        · rintro ⟨rfl, -, -, (⟨hpp, -⟩ | ⟨-, -, rfl⟩ | ⟨-, hnc, -⟩)⟩
          · exact absurd hpp hp
          · exact ⟨rfl, rfl⟩
          · exact absurd hc hnc
      · rw [if_neg hc]
        by_cases he : (v, w') ∉ bn.edges ∧ (w', v) ∉ bn.edges
        · rw [if_pos he]
          simp only [List.mem_map, mem_sortVars, Finset.mem_inter, Prod.mk.injEq]
          constructor
          · rintro ⟨k, ⟨hk1, hk2⟩, rfl, rfl⟩
            exact ⟨rfl, hmb, hF,
              Or.inr (Or.inr ⟨hp, hc, he.1, he.2, k, hk1, hk2, rfl⟩)⟩
          · rintro ⟨rfl, -, -,
              (⟨hpp, -⟩ | ⟨-, hcc, -⟩ | ⟨-, -, -, -, k, hk1, hk2, rfl⟩)⟩
            · exact absurd hpp hp
            · exact absurd hcc hc
            · exact ⟨k, ⟨hk1, hk2⟩, rfl, rfl⟩
        · rw [if_neg he]
          simp only [List.not_mem_nil, false_iff]
          rintro ⟨rfl, -, -,
            (⟨hpp, -⟩ | ⟨-, hcc, -⟩ | ⟨-, -, he1, he2, -⟩)⟩
          · exact absurd hpp hp
          · exact absurd hcc hc
          · exact he ⟨he1, he2⟩

lemma mem_specRequests {bn : BN} {v : Var} {F : Finset Var} {w : Var}
    {f : Finset Var} :
    (w, f) ∈ specRequests bn v F ↔
      w ∈ mbSet bn v ∧ w ∉ F ∧
        ((w ∈ predsBN bn v ∧ f = F ∪ {w}) ∨
         (w ∉ predsBN bn v ∧ w ∈ succsBN bn v ∧
           f = F ∪ {w} ∪ (predsBN bn w \ {v})) ∨
         (w ∉ predsBN bn v ∧ w ∉ succsBN bn v ∧
           (v, w) ∉ bn.edges ∧ (w, v) ∉ bn.edges ∧
           ∃ k, k ∈ succsBN bn v ∧ k ∈ succsBN bn w ∧ f = F ∪ {w, k})) := by
  simp only [specRequests, List.mem_flatMap, mem_sortVars, mem_specCaseRequests]
  constructor
  · rintro ⟨w', -, rfl, h⟩
    exact h
  · intro h
    exact ⟨w, h.1, rfl, h⟩

/-- Claim C1: for every network and every node `(v, F)` being expanded,
expansion considers exactly the candidates `w` in the Markov blanket of
`v` with `w ∉ F`, classifying each by the fixed priority order: a parent
of `v` yields one support request with `newF = F ∪ {w}`; otherwise a
child of `v` yields one request with `newF = F ∪ {w} ∪ (parents(w) \ {v})`;
otherwise (spouse) one request per shared child `k` with
`newF = F ∪ {w, k}`, issued only when there is no direct edge between
`v` and `w` in either direction.  First conjunct: the code's recursive
`_expand` issues exactly the spec's requests in order; second conjunct:
the spec request list contains precisely the classified requests. -/
theorem c1_expand_classification (bn : BN) (sg : SG) (v : Var) (F : Finset Var) :
    _expand bn sg (v, F) =
      (specRequests bn v F).foldl (addStep bn (v, F)) sg ∧
    (∀ w f, (w, f) ∈ specRequests bn v F ↔
      w ∈ mbSet bn v ∧ w ∉ F ∧
        ((w ∈ predsBN bn v ∧ f = F ∪ {w}) ∨
         (w ∉ predsBN bn v ∧ w ∈ succsBN bn v ∧
           f = F ∪ {w} ∪ (predsBN bn w \ {v})) ∨
         (w ∉ predsBN bn v ∧ w ∉ succsBN bn v ∧
           (v, w) ∉ bn.edges ∧ (w, v) ∉ bn.edges ∧
           ∃ k, k ∈ succsBN bn v ∧ k ∈ succsBN bn w ∧ f = F ∪ {w, k}))) :=
  ⟨expand_eq_foldl bn sg (v, F), fun _ _ => mem_specRequests⟩

/-! ### Structural invariants preserved by the builder -/

/-- The per-edge forbidden-set growth property: along an edge
`(J → I)` the supporter `J`'s forbidden set contains `I`'s, contains
`J`'s own variable, and that variable is not in `I`'s forbidden set. -/
def EdgeGrows (e : SNode × SNode) : Prop :=
  e.2.2 ⊆ e.1.2 ∧ e.1.1 ∈ e.1.2 ∧ e.1.1 ∉ e.2.2

/-- Directed reachability along support-graph edges. -/
def ReachesSG (g : SG) (a b : SNode) : Prop :=
  Relation.ReflTransGen (fun x y => (x, y) ∈ g.edges) a b

/-- Invariant maintained throughout construction: every node's variable
is a network member, its forbidden set is a set of network members
containing its own variable; every edge satisfies `EdgeGrows`; every
node except the root has an outgoing edge; every node reaches the root. -/
def BuildInv (bn : BN) (root : SNode) (g : SG) : Prop :=
  (∀ n ∈ g.nodes, n.1 ∈ bn.nodes ∧ n.2 ⊆ bn.nodes ∧ n.1 ∈ n.2) ∧
  (∀ e ∈ g.edges, EdgeGrows e) ∧
  (∀ n ∈ g.nodes, n = root ∨ ∃ m, (n, m) ∈ g.edges) ∧
  (∀ n ∈ g.nodes, ReachesSG g n root)

/-- The facts that hold of every support request `(w, f)` issued while
expanding `node_i`. -/
def ReqOK (bn : BN) (node_i : SNode) (p : Var × Finset Var) : Prop :=
  p.1 ∈ bn.nodes ∧ p.1 ∉ node_i.2 ∧ node_i.2 ⊆ p.2 ∧ p.1 ∈ p.2 ∧ p.2 ⊆ bn.nodes

lemma reaches_mono {g g' : SG} (h : g.edges ⊆ g'.edges) {a b : SNode} :
    ReachesSG g a b → ReachesSG g' a b :=
  Relation.ReflTransGen.mono (fun x y hxy => h hxy)

lemma specRequests_ok {bn : BN} {node_i : SNode} (hF : node_i.2 ⊆ bn.nodes) :
    ∀ p ∈ specRequests bn node_i.1 node_i.2,
      ReqOK bn node_i p ∧ muF bn p.2 < muF bn node_i.2 := by
  rintro ⟨w, f⟩ hp
  rw [mem_specRequests] at hp
  obtain ⟨hmb, hFw, hcase⟩ := hp
  have hw : w ∈ bn.nodes := mbSet_subset_nodes bn node_i.1 hmb
  have main : node_i.2 ⊆ f ∧ w ∈ f ∧ f ⊆ bn.nodes := by
    rcases hcase with ⟨-, rfl⟩ | ⟨-, -, rfl⟩ | ⟨-, -, -, -, k, hk1, -, rfl⟩
    · exact ⟨Finset.subset_union_left,
        Finset.mem_union_right _ (Finset.mem_singleton_self w),
        Finset.union_subset hF (Finset.singleton_subset_iff.mpr hw)⟩
    · refine ⟨Finset.subset_union_left.trans Finset.subset_union_left,
        Finset.mem_union_left _
          (Finset.mem_union_right _ (Finset.mem_singleton_self w)), ?_⟩
      exact Finset.union_subset
        (Finset.union_subset hF (Finset.singleton_subset_iff.mpr hw))
        (Finset.sdiff_subset.trans (predsBN_subset bn w))
    · refine ⟨Finset.subset_union_left,
        Finset.mem_union_right _ (Finset.mem_insert_self w _), ?_⟩
      refine Finset.union_subset hF ?_
      rw [Finset.insert_subset_iff, Finset.singleton_subset_iff]
      exact ⟨hw, succsBN_subset bn node_i.1 hk1⟩
  exact ⟨⟨hw, hFw, main.1, main.2.1, main.2.2⟩,
    mu_lt bn hw hFw main.1 main.2.1⟩

lemma addEdge_nodes_eq {g : SG} {a b : SNode} (ha : a ∈ g.nodes)
    (hb : b ∈ g.nodes) : (addEdgeSG g a b).nodes = g.nodes := by
  show insert a (insert b g.nodes) = g.nodes
  rw [Finset.insert_eq_self.mpr hb, Finset.insert_eq_self.mpr ha]

lemma inv_addEdge {bn : BN} {root : SNode} {g : SG} {node_i node_j : SNode}
    (h : BuildInv bn root g) (hi : node_i ∈ g.nodes) (hj : node_j ∈ g.nodes)
    (hgrow : EdgeGrows (node_j, node_i)) :
    BuildInv bn root (addEdgeSG g node_j node_i) := by
  obtain ⟨h1, h2, h3, h4⟩ := h
  have hnodes : (addEdgeSG g node_j node_i).nodes = g.nodes :=
    addEdge_nodes_eq hj hi
  have hedges : (addEdgeSG g node_j node_i).edges =
      insert (node_j, node_i) g.edges := rfl
  refine ⟨?_, ?_, ?_, ?_⟩
  · rw [hnodes]; exact h1
  · rw [hedges]
    intro e he
    rcases Finset.mem_insert.mp he with rfl | he
    · exact hgrow
    · exact h2 e he
  · rw [hnodes]
    intro n hn
    rcases h3 n hn with hroot | ⟨m, hm⟩
    · exact Or.inl hroot
    · exact Or.inr ⟨m, by rw [hedges]; exact Finset.mem_insert_of_mem hm⟩
  · rw [hnodes]
    intro n hn
    exact reaches_mono (by rw [hedges]; exact Finset.subset_insert _ _) (h4 n hn)

lemma inv_addNew {bn : BN} {root : SNode} {g : SG} {node_i node_j : SNode}
    (h : BuildInv bn root g) (hi : node_i ∈ g.nodes)
    (hj1 : node_j.1 ∈ bn.nodes) (hj2 : node_j.2 ⊆ bn.nodes)
    (hj3 : node_j.1 ∈ node_j.2) (hgrow : EdgeGrows (node_j, node_i)) :
    BuildInv bn root (addEdgeSG (addNodeSG g node_j) node_j node_i) ∧
      g.nodes ⊆ (addEdgeSG (addNodeSG g node_j) node_j node_i).nodes ∧
      g.edges ⊆ (addEdgeSG (addNodeSG g node_j) node_j node_i).edges ∧
      node_j ∈ (addEdgeSG (addNodeSG g node_j) node_j node_i).nodes := by
  obtain ⟨h1, h2, h3, h4⟩ := h
  have hnodes : (addEdgeSG (addNodeSG g node_j) node_j node_i).nodes =
      insert node_j (insert node_i (insert node_j g.nodes)) := rfl
  have hedges : (addEdgeSG (addNodeSG g node_j) node_j node_i).edges =
      insert (node_j, node_i) g.edges := rfl
  have hmemn : ∀ n, n ∈ (addEdgeSG (addNodeSG g node_j) node_j node_i).nodes ↔
      n = node_j ∨ n ∈ g.nodes := by
    intro n
    rw [hnodes]
    simp only [Finset.mem_insert]
    constructor
    · rintro (rfl | rfl | rfl | hn)
      · exact Or.inl rfl
      · exact Or.inr hi
      · exact Or.inl rfl
      · exact Or.inr hn
    · rintro (rfl | hn)
      · exact Or.inl rfl
      · exact Or.inr (Or.inr (Or.inr hn))
  have hesub : g.edges ⊆ (addEdgeSG (addNodeSG g node_j) node_j node_i).edges := by
    rw [hedges]; exact Finset.subset_insert _ _
  refine ⟨⟨?_, ?_, ?_, ?_⟩, fun n hn => (hmemn n).mpr (Or.inr hn), hesub,
    (hmemn node_j).mpr (Or.inl rfl)⟩
  · intro n hn
    rcases (hmemn n).mp hn with rfl | hn
    · exact ⟨hj1, hj2, hj3⟩
    · exact h1 n hn
  · rw [hedges]
    intro e he
    rcases Finset.mem_insert.mp he with rfl | he
    · exact hgrow
    · exact h2 e he
  · intro n hn
    rcases (hmemn n).mp hn with rfl | hn
    · exact Or.inr ⟨node_i, by rw [hedges]; exact Finset.mem_insert_self _ _⟩
    · rcases h3 n hn with hroot | ⟨m, hm⟩
      · exact Or.inl hroot
      · exact Or.inr ⟨m, hesub hm⟩
  · intro n hn
    rcases (hmemn n).mp hn with rfl | hn
    · exact Relation.ReflTransGen.head
        (by rw [hedges]; exact Finset.mem_insert_self _ _)
        (reaches_mono hesub (h4 node_i hi))
    · exact reaches_mono hesub (h4 n hn)

lemma foldl_inv_aux (bn : BN) (root : SNode) (k : Nat)
    (H : ∀ (node_i : SNode) (w : Var) (f : Finset Var) (sg : SG),
      muF bn f ≤ k → BuildInv bn root sg → node_i ∈ sg.nodes →
      ReqOK bn node_i (w, f) →
      BuildInv bn root (_add_support bn sg node_i w f) ∧
        sg.nodes ⊆ (_add_support bn sg node_i w f).nodes ∧
        sg.edges ⊆ (_add_support bn sg node_i w f).edges) :
    ∀ (reqs : List (Var × Finset Var)) (node_j : SNode) (sg : SG),
      (∀ p ∈ reqs, ReqOK bn node_j p ∧ muF bn p.2 ≤ k) →
      BuildInv bn root sg → node_j ∈ sg.nodes →
      BuildInv bn root (reqs.foldl (addStep bn node_j) sg) ∧
        sg.nodes ⊆ (reqs.foldl (addStep bn node_j) sg).nodes ∧
        sg.edges ⊆ (reqs.foldl (addStep bn node_j) sg).edges := by
  intro reqs
  induction reqs with
  | nil =>
    intro node_j sg _ hinv _
    exact ⟨hinv, Finset.Subset.refl _, Finset.Subset.refl _⟩
  | cons p ps ih =>
    intro node_j sg hps hinv hnj
    rw [List.foldl_cons]
    have hp := hps p (List.mem_cons_self p ps)
    have h1 := H node_j p.1 p.2 sg hp.2 hinv hnj hp.1
    have h2 := ih node_j (addStep bn node_j sg p)
      (fun q hq => hps q (List.mem_cons_of_mem p hq)) h1.1 (h1.2.1 hnj)
    exact ⟨h2.1, h1.2.1.trans h2.2.1, h1.2.2.trans h2.2.2⟩

lemma addSupport_inv_aux :
    ∀ (k : Nat) (bn : BN) (root node_i : SNode) (w : Var) (f : Finset Var)
      (sg : SG),
      muF bn f ≤ k → BuildInv bn root sg → node_i ∈ sg.nodes →
      ReqOK bn node_i (w, f) →
      BuildInv bn root (_add_support bn sg node_i w f) ∧
        sg.nodes ⊆ (_add_support bn sg node_i w f).nodes ∧
        sg.edges ⊆ (_add_support bn sg node_i w f).edges := by
  intro k
  induction k with
  | zero =>
    intro bn root node_i w f sg hk _ _ _
    have := one_le_muF bn f
    omega
  | succ k ih =>
    intro bn root node_i w f sg hk hinv hni hreq
    obtain ⟨hw, hwF, hsub, hwf, hfsub⟩ := hreq
    rw [addSupport_unfold]
    split_ifs with hmem hedge
    · exact ⟨hinv, Finset.Subset.refl _, Finset.Subset.refl _⟩
    · refine ⟨inv_addEdge hinv hni hmem ⟨hsub, hwf, hwF⟩, ?_, ?_⟩
      · rw [addEdge_nodes_eq hmem hni]
      · exact Finset.subset_insert _ _
    · have hnew := @inv_addNew bn root sg node_i (w, f) hinv hni hw hfsub hwf
        ⟨hsub, hwf, hwF⟩
      rw [expand_eq_foldl]
      have hreqs : ∀ p ∈ specRequests bn w f,
          ReqOK bn (w, f) p ∧ muF bn p.2 ≤ k := by
        intro p hp
        have hok := @specRequests_ok bn (w, f) hfsub p hp
        refine ⟨hok.1, ?_⟩
        have hlt : muF bn p.2 < muF bn f := hok.2
        omega
      have hfold := foldl_inv_aux bn root k
        (fun ni w' f' sg' h1 h2 h3 h4 => ih bn root ni w' f' sg' h1 h2 h3 h4)
        (specRequests bn w f) (w, f)
        (addEdgeSG (addNodeSG sg (w, f)) (w, f) node_i)
        hreqs hnew.1 hnew.2.2.2
      exact ⟨hfold.1, hnew.2.1.trans hfold.2.1, hnew.2.2.1.trans hfold.2.2⟩

lemma initial_inv (bn : BN) (v : Var) (hv : v ∈ bn.nodes) :
    BuildInv bn (v, {v}) (initialSG v) := by
  refine ⟨?_, ?_, ?_, ?_⟩
  · intro n hn
    rw [show (initialSG v).nodes = {(v, {v})} from rfl,
      Finset.mem_singleton] at hn
    subst hn
    exact ⟨hv, Finset.singleton_subset_iff.mpr hv, Finset.mem_singleton_self v⟩
  · intro e he
    exact absurd he (Finset.not_mem_empty e)
  · intro n hn
    rw [show (initialSG v).nodes = {(v, {v})} from rfl,
      Finset.mem_singleton] at hn
    exact Or.inl hn
  · intro n hn
    rw [show (initialSG v).nodes = {(v, {v})} from rfl,
      Finset.mem_singleton] at hn
    subst hn
    exact Relation.ReflTransGen.refl

lemma build_inv (bn : BN) (v : Var) (hv : v ∈ bn.nodes) :
    BuildInv bn (v, {v}) (_expand bn (initialSG v) (v, {v})) ∧
      (v, ({v} : Finset Var)) ∈ (_expand bn (initialSG v) (v, {v})).nodes := by
  rw [expand_eq_foldl]
  have hroot : ((v : Var), ({v} : Finset Var)) ∈ (initialSG v).nodes :=
    Finset.mem_singleton_self _
  have hreqs : ∀ p ∈ specRequests bn v {v},
      ReqOK bn ((v : Var), ({v} : Finset Var)) p ∧
        muF bn p.2 ≤ bn.nodes.card + 1 := by
    intro p hp
    have hok := @specRequests_ok bn ((v : Var), ({v} : Finset Var))
      (Finset.singleton_subset_iff.mpr hv) p hp
    exact ⟨hok.1, muF_le bn p.2⟩
  have hfold := foldl_inv_aux bn (v, {v}) (bn.nodes.card + 1)
    (fun ni w f sg h1 h2 h3 h4 =>
      addSupport_inv_aux (bn.nodes.card + 1) bn (v, {v}) ni w f sg h1 h2 h3 h4)
    (specRequests bn v {v}) (v, {v}) (initialSG v) hreqs
    (initial_inv bn v hv) hroot
  exact ⟨hfold.1, hfold.2.1 hroot⟩

lemma create_ok_elim {bn : BN} {v : Var} {g : SG}
    (h : create_support_graph bn v = Except.ok g) :
    v ∈ bn.nodes ∧ g = _expand bn (initialSG v) (v, {v}) := by
  by_cases hv : v ∈ bn.nodes
  · rw [create_support_graph, if_pos hv] at h
    exact ⟨hv, (Except.ok.inj h).symm⟩
  · rw [create_support_graph, if_neg hv] at h
    exact absurd h (by simp)

/-- Claim C2: for every edge (J → I) of a graph returned by
`create_support_graph`, the forbidden set of J contains the forbidden
set of I together with J's variable, and J's variable is not in I's
forbidden set; hence J's forbidden set is a strict superset of I's, so
forbidden sets grow strictly along every directed path of the built
graph. -/
theorem c2_forbidden_sets_grow {bn : BN} {v : Var} {g : SG}
    (h : create_support_graph bn v = Except.ok g) :
    (∀ e ∈ g.edges,
      e.2.2 ∪ {e.1.1} ⊆ e.1.2 ∧ e.1.1 ∉ e.2.2 ∧ e.2.2 ⊂ e.1.2) ∧
    (∀ a b : SNode,
      Relation.TransGen (fun x y => (x, y) ∈ g.edges) a b → b.2 ⊂ a.2) := by
  obtain ⟨hv, hg⟩ := create_ok_elim h
  subst hg
  have hinv := (build_inv bn v hv).1
  have hstep : ∀ e ∈ (_expand bn (initialSG v) (v, {v})).edges,
      e.2.2 ∪ {e.1.1} ⊆ e.1.2 ∧ e.1.1 ∉ e.2.2 ∧ e.2.2 ⊂ e.1.2 := by
    intro e he
    obtain ⟨hs, hm, hn⟩ := hinv.2.1 e he
    refine ⟨Finset.union_subset hs (Finset.singleton_subset_iff.mpr hm), hn, ?_⟩
    exact (Finset.ssubset_iff_of_subset hs).mpr ⟨e.1.1, hm, hn⟩
  refine ⟨hstep, ?_⟩
  intro a b hab
  induction hab with
  | single h1 => exact (hstep _ h1).2.2
  | tail _ h1 ih => exact (hstep _ h1).2.2.trans ih

/-- Claim C4: for every network and member root variable, the graph
returned by `create_support_graph` contains the root node
`(root, {root})` (whose forbidden set is exactly `{root}`), the root has
no outgoing edges, and it is the unique such node: every other node has
at least one outgoing edge. -/
theorem c4_root_unique_sink {bn : BN} {v : Var} {g : SG}
    (h : create_support_graph bn v = Except.ok g) :
    (v, ({v} : Finset Var)) ∈ g.nodes ∧
    (∀ m : SNode, ((v, ({v} : Finset Var)), m) ∉ g.edges) ∧
    (∀ n ∈ g.nodes, n ≠ (v, ({v} : Finset Var)) → ∃ m, (n, m) ∈ g.edges) := by
  obtain ⟨hv, hg⟩ := create_ok_elim h
  subst hg
  obtain ⟨⟨h1, h2, h3, _⟩, hroot⟩ := build_inv bn v hv
  refine ⟨hroot, ?_, ?_⟩
  · intro m hm
    obtain ⟨hs, -, hn⟩ := h2 _ hm
    have hmem : m ∈ (_expand bn (initialSG v) (v, {v})).nodes :=
      ((_expand bn (initialSG v) (v, {v})).edge_mem _ hm).2
    have hm2 : m.1 ∈ m.2 := (h1 m hmem).2.2
    have hmv : m.1 = v := Finset.mem_singleton.mp (hs hm2)
    exact hn (hmv ▸ hm2)
  · intro n hn hne
    rcases h3 n hn with hr | hex
    · exact absurd hr hne
    · exact hex

/-- Claim C9: for every finite network and member root variable, the
build terminates and returns a graph; moreover each of its nodes pairs a
network variable with a forbidden set drawn from the network's
variables, so only finitely many distinct (variable, forbidden-set)
pairs can ever arise. -/
theorem c9_build_terminates (bn : BN) (v : Var) (hv : v ∈ bn.nodes) :
    ∃ g, create_support_graph bn v = Except.ok g ∧
      ∀ n ∈ g.nodes, n.1 ∈ bn.nodes ∧ n.2 ⊆ bn.nodes := by
  refine ⟨_, by rw [create_support_graph, if_pos hv], ?_⟩
  intro n hn
  have hfacts := ((build_inv bn v hv).1).1 n hn
  exact ⟨hfacts.1, hfacts.2.1⟩

/-- Claim C10: in every graph returned by `create_support_graph`, every
node has a directed path along supporter-to-supported edges to the root
node: no orphan nodes or components are ever created. -/
theorem c10_all_reach_root {bn : BN} {v : Var} {g : SG}
    (h : create_support_graph bn v = Except.ok g) :
    ∀ n ∈ g.nodes, ReachesSG g n (v, {v}) := by
  obtain ⟨hv, hg⟩ := create_ok_elim h
  subst hg
  exact ((build_inv bn v hv).1).2.2.2

/-! ### The pruner (`prune_support_graph`) -/

/-- `g.predecessors(n)` in a support graph. -/
def predsSG (g : SG) (n : SNode) : Finset SNode :=
  (g.edges.filter (fun e => e.2 = n)).image Prod.fst

/-- `g.successors(n)` in a support graph. -/
def succsSG (g : SG) (n : SNode) : Finset SNode :=
  (g.edges.filter (fun e => e.1 = n)).image Prod.snd

lemma predsSG_subset (g : SG) (n : SNode) : predsSG g n ⊆ g.nodes := by
  intro x hx
  simp only [predsSG, Finset.mem_image, Finset.mem_filter] at hx
  obtain ⟨e, ⟨he, _⟩, hfst⟩ := hx
  exact hfst ▸ (g.edge_mem e he).1

/-- One closure step towards `nx.ancestors`: add all direct supporters. -/
def stepUp (g : SG) (s : Finset SNode) : Finset SNode :=
  s ∪ s.biUnion (fun n => predsSG g n)

/-- `nx.ancestors(g, n)`: every node with a directed path to `n`,
excluding `n` itself.  Iterating the one-step closure `g.nodes.card`
times reaches every ancestor, since a shortest path repeats no node. -/
def ancestorsSG (g : SG) (n : SNode) : Finset SNode :=
  ((fun s => stepUp g s)^[g.nodes.card] {n}).erase n

lemma iterate_stepUp_subset (g : SG) :
    ∀ (m : Nat) (s : Finset SNode), s ⊆ g.nodes →
      (fun s => stepUp g s)^[m] s ⊆ g.nodes := by
  intro m
  induction m with
  | zero => intro s hs; exact hs
  | succ m ih =>
    intro s hs
    rw [Function.iterate_succ_apply]
    refine ih _ (Finset.union_subset hs ?_)
    intro x hx
    obtain ⟨n, -, hn⟩ := Finset.mem_biUnion.mp hx
    exact predsSG_subset g n hn

lemma ancestorsSG_subset {g : SG} {n : SNode} (hn : n ∈ g.nodes) :
    ancestorsSG g n ⊆ g.nodes :=
  (Finset.erase_subset n _).trans
    (iterate_stepUp_subset g _ {n} (Finset.singleton_subset_iff.mpr hn))

/-- The batch of nodes one pass of the pruning loop marks for removal.
Rule 1: every ancestor of a node whose variable (its `label` attribute,
i.e. the node's first component) is an evidence variable.  Rule 2: every
node whose variable is not an evidence variable, with no incoming edge
and at least one outgoing edge. -/
def pruneStep (g : SG) (ev : Finset Var) : Finset SNode :=
  g.nodes.biUnion (fun node =>
    (if node.1 ∈ ev then ancestorsSG g node else ∅) ∪
    (if node.1 ∉ ev ∧ predsSG g node = ∅ ∧ succsSG g node ≠ ∅ then {node}
     else ∅))

lemma pruneStep_subset (g : SG) (ev : Finset Var) : pruneStep g ev ⊆ g.nodes := by
  intro x hx
  obtain ⟨n, hn, hmem⟩ := Finset.mem_biUnion.mp hx
  rcases Finset.mem_union.mp hmem with h | h
  · split_ifs at h with h1
    · exact ancestorsSG_subset hn h
    · exact absurd h (Finset.not_mem_empty x)
  · split_ifs at h with h1
    · exact (Finset.mem_singleton.mp h) ▸ hn
    · exact absurd h (Finset.not_mem_empty x)

/-- `g.remove_nodes_from(s)`: drop the nodes and all incident edges. -/
def removeNodes (g : SG) (s : Finset SNode) : SG :=
  ⟨g.nodes \ s, g.edges.filter (fun e => e.1 ∉ s ∧ e.2 ∉ s), by
    intro e he
    rw [Finset.mem_filter] at he
    exact ⟨Finset.mem_sdiff.mpr ⟨(g.edge_mem e he.1).1, he.2.1⟩,
      Finset.mem_sdiff.mpr ⟨(g.edge_mem e he.1).2, he.2.2⟩⟩⟩

/-- The `while True` fixed-point loop of `prune_support_graph`: collect
one batch of marked nodes; if the batch is empty, stop; otherwise remove
the whole batch at once and repeat. -/
def pruneLoop (g : SG) (ev : Finset Var) : SG :=
  if h : pruneStep g ev = ∅ then g
  else pruneLoop (removeNodes g (pruneStep g ev)) ev
termination_by g.nodes.card
decreasing_by
  exact Finset.card_lt_card
    (Finset.sdiff_ssubset (pruneStep_subset g ev)
      (Finset.nonempty_iff_ne_empty.mpr h))

/-- `support_graph.copy()`: an independently owned graph with the same
nodes, edges and attributes. -/
def sgCopy (g : SG) : SG := ⟨g.nodes, g.edges, g.edge_mem⟩

lemma sgCopy_eq (g : SG) : sgCopy g = g := rfl

/-- `prune_support_graph(support_graph, evidence_variables)`: run the
fixed-point removal loop on a copy of the input. -/
def prune_support_graph (support_graph : SG) (evidence_variables : Finset Var) :
    SG :=
  pruneLoop (sgCopy support_graph) evidence_variables

/-- The object state of one `prune_support_graph` call: the first
component is the caller's `support_graph` object after the call, the
second the returned object.  The body's only mutating statements
(`remove_nodes_from`, inside the loop) all target the copy `pruned_sg`
created by the first line, so the input object keeps its value. -/
def pruneImperative (support_graph : SG) (evidence_variables : Finset Var) :
    SG × SG :=
  let pruned_sg := sgCopy support_graph
  (support_graph, pruneLoop pruned_sg evidence_variables)

lemma pruneLoop_eq (g : SG) (ev : Finset Var) :
    pruneLoop g ev =
      if pruneStep g ev = ∅ then g
      else pruneLoop (removeNodes g (pruneStep g ev)) ev := by
  rw [pruneLoop]
  split_ifs with h <;> rfl

lemma pruneLoop_fixed (g : SG) (ev : Finset Var) :
    pruneStep (pruneLoop g ev) ev = ∅ := by
  rw [pruneLoop_eq]
  split_ifs with h
  · exact h
  · exact pruneLoop_fixed (removeNodes g (pruneStep g ev)) ev
termination_by g.nodes.card
decreasing_by
  exact Finset.card_lt_card
    (Finset.sdiff_ssubset (pruneStep_subset g ev)
      (Finset.nonempty_iff_ne_empty.mpr h))

lemma pruneStep_congr {g : SG} {ev ev' : Finset Var}
    (h : ∀ n ∈ g.nodes, (n.1 ∈ ev ↔ n.1 ∈ ev')) :
    pruneStep g ev = pruneStep g ev' := by
  unfold pruneStep
  refine Finset.biUnion_congr rfl ?_
  intro n hn
  rw [if_congr (h n hn) rfl rfl,
    if_congr (and_congr (not_congr (h n hn)) Iff.rfl) rfl rfl]

lemma pruneLoop_congr : ∀ (g : SG) (ev ev' : Finset Var),
    (∀ n ∈ g.nodes, (n.1 ∈ ev ↔ n.1 ∈ ev')) →
      pruneLoop g ev = pruneLoop g ev' := by
  intro g ev ev' h
  rw [pruneLoop_eq g ev, pruneLoop_eq g ev', pruneStep_congr h]
  split_ifs with h1
  · rfl
  · exact pruneLoop_congr (removeNodes g (pruneStep g ev')) ev ev'
      (fun n hn => h n (Finset.mem_sdiff.mp hn).1)
termination_by g _ _ _ => g.nodes.card
decreasing_by
  exact Finset.card_lt_card
    (Finset.sdiff_ssubset (pruneStep_subset g ev')
      (Finset.nonempty_iff_ne_empty.mpr h1))

lemma pruneLoop_subset : ∀ (g : SG) (ev : Finset Var),
    (pruneLoop g ev).nodes ⊆ g.nodes ∧ (pruneLoop g ev).edges ⊆ g.edges := by
  intro g ev
  rw [pruneLoop_eq]
  split_ifs with h
  · exact ⟨Finset.Subset.refl _, Finset.Subset.refl _⟩
  · have ih := pruneLoop_subset (removeNodes g (pruneStep g ev)) ev
    exact ⟨ih.1.trans Finset.sdiff_subset,
      ih.2.trans (Finset.filter_subset _ _)⟩
termination_by g _ => g.nodes.card
decreasing_by
  exact Finset.card_lt_card
    (Finset.sdiff_ssubset (pruneStep_subset g ev)
      (Finset.nonempty_iff_ne_empty.mpr h))

/-- Claim C3: `prune_support_graph` computes a fixed point of the two
batch removal rules embodied by `pruneStep` (Rule 1: ancestors of
evidence nodes; Rule 2: non-evidence nodes with no incoming and at least
one outgoing edge); on the returned graph one further pass marks
nothing.  Moreover evidence identifiers not occurring in the graph never
match and have no effect: pruning with `ev` equals pruning with `ev`
restricted to the variables labelling the graph's nodes. -/
theorem c3_prune_fixed_point_lenient (g : SG) (ev : Finset Var) :
    pruneStep (prune_support_graph g ev) ev = ∅ ∧
    prune_support_graph g ev =
      prune_support_graph g (ev ∩ g.nodes.image Prod.fst) := by
  constructor
  · exact pruneLoop_fixed (sgCopy g) ev
  · refine pruneLoop_congr (sgCopy g) ev (ev ∩ g.nodes.image Prod.fst) ?_
    intro n hn
    rw [Finset.mem_inter]
    exact ⟨fun hv => ⟨hv, Finset.mem_image.mpr ⟨n, hn, rfl⟩⟩, fun hv => hv.1⟩

/-- Claim C5: pruning is idempotent: for every support graph and
evidence set, pruning the pruned graph again changes nothing. -/
theorem c5_prune_idempotent (g : SG) (ev : Finset Var) :
    prune_support_graph (prune_support_graph g ev) ev =
      prune_support_graph g ev := by
  have hfix := pruneLoop_fixed (sgCopy g) ev
  unfold prune_support_graph
  simp only [sgCopy_eq] at hfix ⊢
  rw [pruneLoop_eq, if_pos hfix]

/-- Claim C6: `prune_support_graph` returns an independent copy and
never mutates its input: modelling the call's two live objects
explicitly (`pruneImperative`), the caller's graph keeps its value,
the returned object is the pruned copy, and that copy is a separately
owned structure (here additionally: a subgraph of the input). -/
theorem c6_prune_no_mutation (g : SG) (ev : Finset Var) :
    (pruneImperative g ev).1 = g ∧
    (pruneImperative g ev).2 = prune_support_graph g ev ∧
    (prune_support_graph g ev).nodes ⊆ g.nodes ∧
    (prune_support_graph g ev).edges ⊆ g.edges := by
  have hsub := pruneLoop_subset (sgCopy g) ev
  exact ⟨rfl, rfl, hsub.1, hsub.2⟩

/-- Claim C7: for every network and member variable `v`, the Markov
blanket is exactly parents(v) ∪ children(v) ∪ (⋃ parents(c) for c in
children(v)) minus {v}; the computation is a pure function of the
network. -/
theorem c7_markov_blanket_formula (bn : BN) (v : Var) (hv : v ∈ bn.nodes) :
    get_markov_blanket bn v =
      Except.ok ((predsBN bn v ∪ succsBN bn v ∪
        (succsBN bn v).biUnion (fun c => predsBN bn c)) \ {v}) := by
  rw [get_markov_blanket, if_pos hv]
  refine congrArg Except.ok ?_
  apply Finset.ext
  intro x
  rw [mem_mbSet]
  simp only [Finset.mem_sdiff, Finset.mem_union, Finset.mem_biUnion,
    Finset.mem_singleton]
  tauto

/-- Claim C8: for every network and every variable `v` that is not a
member, both the blanket computation and the graph construction fail
with the not-found error identifying `v` instead of returning normally. -/
theorem c8_unknown_variable_errors (bn : BN) (v : Var) (hv : v ∉ bn.nodes) :
    get_markov_blanket bn v = Except.error ⟨v⟩ ∧
    create_support_graph bn v = Except.error ⟨v⟩ := by
  rw [get_markov_blanket, if_neg hv, create_support_graph, if_neg hv]
  exact ⟨rfl, rfl⟩

/-! ### A concrete network and its built support graph

The two-variable network a → b, used to exhibit satisfiable hypotheses
for the theorems above.  Expanding the root ("a", {"a"}) classifies "b"
as a child with new forbidden set {"a", "b"}; expanding ("b", {"a", "b"})
finds only "a", which is forbidden, so construction stops. -/

def bnEx : BN := ⟨{"a", "b"}, {("a", "b")}, by decide⟩

def gEx : SG :=
  ⟨{("a", {"a"}), ("b", {"a", "b"})},
   {(("b", {"a", "b"}), ("a", {"a"}))}, by decide⟩

lemma create_bnEx : create_support_graph bnEx "a" = Except.ok gEx := by
  have hreq1 : specRequests bnEx (("a", ({"a"} : Finset Var)) : SNode).1
      (("a", ({"a"} : Finset Var)) : SNode).2 = [("b", {"a", "b"})] := by decide
  have hreq2 : specRequests bnEx (("b", ({"a", "b"} : Finset Var)) : SNode).1
      (("b", ({"a", "b"} : Finset Var)) : SNode).2 = [] := by decide
  rw [create_support_graph, if_pos (by decide : "a" ∈ bnEx.nodes)]
  refine congrArg Except.ok ?_
  rw [expand_eq_foldl, hreq1, List.foldl_cons, List.foldl_nil]
  show _add_support bnEx (initialSG "a") ("a", {"a"}) "b" {"a", "b"} = gEx
  rw [addSupport_unfold, if_neg (by decide)]
  rw [expand_eq_foldl, hreq2, List.foldl_nil]
  decide

/-- Witness for C2 at the edge (("b", {"a","b"}) → ("a", {"a"})) of the
graph built from `bnEx`. -/
theorem c2_forbidden_sets_grow_witness :
    ({"a"} : Finset Var) ∪ {"b"} ⊆ {"a", "b"} ∧
      "b" ∉ ({"a"} : Finset Var) ∧ ({"a"} : Finset Var) ⊂ {"a", "b"} :=
  (c2_forbidden_sets_grow create_bnEx).1
    (("b", {"a", "b"}), ("a", {"a"})) (by decide)

/-- Witness for C4 on the graph built from `bnEx`: the root is present
and the non-root node has an outgoing edge. -/
theorem c4_root_unique_sink_witness :
    ("a", ({"a"} : Finset Var)) ∈ gEx.nodes ∧
      ∃ m, (("b", ({"a", "b"} : Finset Var)), m) ∈ gEx.edges :=
  ⟨(c4_root_unique_sink create_bnEx).1,
   (c4_root_unique_sink create_bnEx).2.2 ("b", {"a", "b"})
     (by decide) (by decide)⟩

/-- Witness for C7 at the member variable "a" of `bnEx`. -/
theorem c7_markov_blanket_formula_witness :
    get_markov_blanket bnEx "a" =
      Except.ok ((predsBN bnEx "a" ∪ succsBN bnEx "a" ∪
        (succsBN bnEx "a").biUnion (fun c => predsBN bnEx c)) \ {"a"}) :=
  c7_markov_blanket_formula bnEx "a" (by decide)

/-- Witness for C8 at the non-member variable "zz" of `bnEx`. -/
theorem c8_unknown_variable_errors_witness :
    get_markov_blanket bnEx "zz" = Except.error ⟨"zz"⟩ ∧
    create_support_graph bnEx "zz" = Except.error ⟨"zz"⟩ :=
  c8_unknown_variable_errors bnEx "zz" (by decide)

/-- Witness for C9 at `bnEx` with member root "a". -/
theorem c9_build_terminates_witness :
    ∃ g, create_support_graph bnEx "a" = Except.ok g ∧
      ∀ n ∈ g.nodes, n.1 ∈ bnEx.nodes ∧ n.2 ⊆ bnEx.nodes :=
  c9_build_terminates bnEx "a" (by decide)

/-- Witness for C10 at the non-root node of the graph built from `bnEx`. -/
theorem c10_all_reach_root_witness :
    ReachesSG gEx ("b", {"a", "b"}) ("a", {"a"}) :=
  c10_all_reach_root create_bnEx ("b", {"a", "b"}) (by decide)
